import Mathlib

/-!
Verification of the b2-node-proxy version-reconciliation pipeline.

The definitions below are a shallow embedding of `index.js` (Cloudflare
worker variant; the express variant in the repository is identical in the
deduplication / merge / handler logic modulo bucket-map resolution).
Network effects are modelled by oracle functions; machine state by explicit
values.
-/

/-- A version record as returned by the upstream listing
(`b2_list_file_versions`).  `createdOrder` models the position of the
record in upstream enumeration order, which the spec's data model declares
chronological oldest to newest. -/
structure VersionRecord where
  fileId : String
  fileName : String
  contentSha1 : String
  contentLength : Nat
  contentType : Option String
  action : String
  createdOrder : Nat
deriving DecidableEq, Repr, Inhabited

/-- One step of building the JS `Map` keyed by `contentSha1`
(`versionsByHash`): an existing key gets the record appended to its group,
a fresh key is appended at the end (JS `Map` iteration is key-insertion
order). -/
def insertVersion (groups : List (String × List VersionRecord)) (v : VersionRecord) :
    List (String × List VersionRecord) :=
  if groups.any (fun g => decide (g.1 = v.contentSha1)) then
    groups.map (fun g => if g.1 = v.contentSha1 then (g.1, g.2 ++ [v]) else g)
  else groups ++ [(v.contentSha1, [v])]

/-- The `versionsByHash` map of `deduplicateAndCombineVersions`, built by the
`for (const version of versions)` loop. -/
def groupByHash (versions : List VersionRecord) : List (String × List VersionRecord) :=
  versions.foldl insertVersion []

/-- The pure partition step of `deduplicateAndCombineVersions`:
`uniqueVersions` takes `versionGroup[0]` of each hash group, in map
iteration order; `versionsToDelete` collects the remaining entries of each
group. -/
def partition (versions : List VersionRecord) :
    List VersionRecord × List VersionRecord :=
  ((groupByHash versions).filterMap (fun g => g.2.head?),
   (groupByHash versions).flatMap (fun g => g.2.tail))

/-- Distinct content hashes of a record list, in order of first appearance. -/
def hashList : List VersionRecord → List String
  | [] => []
  | v :: vs => v.contentSha1 :: (hashList vs).filter (fun h => decide (h ≠ v.contentSha1))

/-- Canonical form of the hash map: one entry per distinct hash, in first
appearance order, whose group is the sublist of records carrying that
hash. -/
def canonGroups (l : List VersionRecord) : List (String × List VersionRecord) :=
  (hashList l).map (fun h => (h, l.filter (fun v => decide (v.contentSha1 = h))))

/-- Survivors as the spec words them: the record at the first appearance of
each fingerprint, in input order. -/
def specSurvivors : List VersionRecord → List VersionRecord
  | [] => []
  | v :: vs => v :: (specSurvivors vs).filter (fun u => decide (u.contentSha1 ≠ v.contentSha1))

lemma mem_hashList {l : List VersionRecord} {h : String} :
    h ∈ hashList l ↔ h ∈ l.map (fun v => v.contentSha1) := by
  induction l with
  | nil => simp [hashList]
  | cons v vs ih =>
    simp only [hashList, List.mem_cons, List.mem_filter, List.map_cons,
      decide_eq_true_eq, ih]
    constructor
    · rintro (rfl | ⟨hm, _⟩)
      · exact Or.inl rfl
      · exact Or.inr hm
    · rintro (rfl | hm)
      · exact Or.inl rfl
      · by_cases hc : h = v.contentSha1
        · exact Or.inl hc
        · exact Or.inr ⟨hm, hc⟩

lemma hashList_nodup (l : List VersionRecord) : (hashList l).Nodup := by
  induction l with
  | nil => simp [hashList]
  | cons v vs ih =>
    refine List.Nodup.cons ?_ (ih.filter _)
    intro hmem
    rcases List.mem_filter.mp hmem with ⟨_, hne⟩
    simp at hne

lemma hashList_append_single (l : List VersionRecord) (v : VersionRecord) :
    hashList (l ++ [v]) =
      if v.contentSha1 ∈ hashList l then hashList l
      else hashList l ++ [v.contentSha1] := by
  induction l with
  | nil => simp [hashList]
  | cons u us ih =>
    have hcons : hashList ((u :: us) ++ [v]) =
        u.contentSha1 :: (hashList (us ++ [v])).filter (fun h => decide (h ≠ u.contentSha1)) := by
      simp [hashList]
    by_cases hmem : v.contentSha1 ∈ hashList us
    · have hmem' : v.contentSha1 ∈ hashList (u :: us) := by
        simp only [hashList, List.mem_cons, List.mem_filter, decide_eq_true_eq]
        by_cases hc : v.contentSha1 = u.contentSha1
        · exact Or.inl hc
        · exact Or.inr ⟨hmem, hc⟩
      rw [hcons, ih, if_pos hmem, if_pos hmem']
      simp [hashList]
    · by_cases hc : v.contentSha1 = u.contentSha1
      · have hmem' : v.contentSha1 ∈ hashList (u :: us) := by
          simp [hashList, hc]
        rw [hcons, ih, if_neg hmem, if_pos hmem', List.filter_append]
        simp [hashList, hc]
      · have hmem' : v.contentSha1 ∉ hashList (u :: us) := by
          simp only [hashList, List.mem_cons, List.mem_filter, decide_eq_true_eq]
          push_neg
          exact ⟨hc, fun hm => absurd hm hmem⟩
        rw [hcons, ih, if_neg hmem, if_neg hmem', List.filter_append]
        simp [hashList, hc]

lemma insertVersion_canon (l : List VersionRecord) (v : VersionRecord) :
    insertVersion (canonGroups l) v = canonGroups (l ++ [v]) := by
  have hcond : ((canonGroups l).any (fun g => decide (g.1 = v.contentSha1)) = true)
      ↔ v.contentSha1 ∈ hashList l := by
    unfold canonGroups
    simp only [List.any_map, List.any_eq_true, Function.comp_apply, decide_eq_true_eq]
    constructor
    · rintro ⟨g, hg, hg1⟩
      rcases List.mem_map.mp hg with ⟨h, hh, rfl⟩
      have hv : h = v.contentSha1 := hg1
      exact hv ▸ hh
    · intro hm
      refine ⟨(v.contentSha1, l.filter (fun u => decide (u.contentSha1 = v.contentSha1))),
        List.mem_map.mpr ⟨v.contentSha1, hm, rfl⟩, rfl⟩
  by_cases hmem : v.contentSha1 ∈ hashList l
  · unfold insertVersion
    rw [if_pos (hcond.mpr hmem)]
    unfold canonGroups
    rw [hashList_append_single, if_pos hmem, List.map_map]
    refine List.map_congr_left ?_
    intro h _
    simp only [Function.comp_apply, List.filter_append]
    by_cases hc : h = v.contentSha1
    · subst hc
      simp
    · have hd : (decide (v.contentSha1 = h)) = false := by
        simp only [decide_eq_false_iff_not]
        exact fun hx => hc hx.symm
      simp [hc, hd, List.filter_cons, List.filter_nil]
  · unfold insertVersion
    rw [if_neg (fun hc => hmem (hcond.mp hc))]
    unfold canonGroups
    rw [hashList_append_single, if_neg hmem, List.map_append]
    congr 1
    · refine List.map_congr_left ?_
      intro h hh
      have hne : v.contentSha1 ≠ h := fun hx => hmem (hx ▸ hh)
      have hd : (decide (v.contentSha1 = h)) = false := by
        simp only [decide_eq_false_iff_not]
        exact hne
      simp [List.filter_append, hd, List.filter_cons, List.filter_nil]
    · have hnil : l.filter (fun u => decide (u.contentSha1 = v.contentSha1)) = [] := by
        rw [List.filter_eq_nil_iff]
        intro u hu hdec
        apply hmem
        rw [mem_hashList]
        exact List.mem_map.mpr ⟨u, hu, by simpa using hdec⟩
      simp [List.filter_append, hnil]

lemma foldl_insertVersion (rest l : List VersionRecord) :
    rest.foldl insertVersion (canonGroups l) = canonGroups (l ++ rest) := by
  induction rest generalizing l with
  | nil => simp
  | cons v vs ih =>
    simp only [List.foldl_cons]
    rw [insertVersion_canon, ih]
    simp

lemma groupByHash_eq_canon (l : List VersionRecord) :
    groupByHash l = canonGroups l := by
  have h := foldl_insertVersion l []
  simpa [groupByHash, canonGroups, hashList] using h

lemma partition_fst (l : List VersionRecord) :
    (partition l).1 = (hashList l).filterMap
      (fun h => (l.filter (fun v => decide (v.contentSha1 = h))).head?) := by
  unfold partition
  rw [groupByHash_eq_canon]
  unfold canonGroups
  rw [List.filterMap_map]
  rfl

lemma partition_snd (l : List VersionRecord) :
    (partition l).2 = (hashList l).flatMap
      (fun h => (l.filter (fun v => decide (v.contentSha1 = h))).tail) := by
  unfold partition
  rw [groupByHash_eq_canon]
  unfold canonGroups
  rw [List.flatMap_map]

lemma head?_filter_hash {l : List VersionRecord} {h : String} {u : VersionRecord}
    (hu : (l.filter (fun v => decide (v.contentSha1 = h))).head? = some u) :
    u.contentSha1 = h ∧ u ∈ l := by
  have hmem : u ∈ l.filter (fun v => decide (v.contentSha1 = h)) := by
    cases hl : l.filter (fun v => decide (v.contentSha1 = h)) with
    | nil => rw [hl] at hu; simp at hu
    | cons a t =>
      rw [hl] at hu
      simp only [List.head?_cons, Option.some.injEq] at hu
      subst hu
      exact hl ▸ List.mem_cons_self a t
  rcases List.mem_filter.mp hmem with ⟨hul, hdec⟩
  exact ⟨by simpa using hdec, hul⟩

lemma filterMap_filter_key (g : String → Option VersionRecord) (a : String)
    (hg : ∀ h u, g h = some u → u.contentSha1 = h) (K : List String) :
    (K.filter (fun h => decide (h ≠ a))).filterMap g
      = (K.filterMap g).filter (fun u => decide (u.contentSha1 ≠ a)) := by
  induction K with
  | nil => simp
  | cons h K ih =>
    rw [List.filter_cons]
    by_cases hha : h = a
    · have hd : (decide (h ≠ a)) = false := by simp [hha]
      rw [hd]
      simp only [Bool.false_eq_true, if_false]
      cases hgh : g h with
      | none => rw [ih, List.filterMap_cons_none hgh]
      | some u =>
        rw [ih, List.filterMap_cons_some hgh, List.filter_cons]
        have hdu : (decide (u.contentSha1 ≠ a)) = false := by
          simp [hg _ _ hgh, hha]
        rw [hdu]
        simp
    · have hd : (decide (h ≠ a)) = true := by simp [hha]
      rw [hd]
      simp only [if_true]
      cases hgh : g h with
      | none => rw [List.filterMap_cons_none hgh, List.filterMap_cons_none hgh, ih]
      | some u =>
        rw [List.filterMap_cons_some hgh, List.filterMap_cons_some hgh, ih,
          List.filter_cons]
        have hdu : (decide (u.contentSha1 ≠ a)) = true := by
          simp [hg _ _ hgh, hha]
        rw [hdu]
        simp

lemma partition_fst_eq_spec (l : List VersionRecord) :
    (partition l).1 = specSurvivors l := by
  induction l with
  | nil => rfl
  | cons v vs ih =>
    rw [partition_fst]
    have hh : hashList (v :: vs)
        = v.contentSha1 :: (hashList vs).filter (fun h => decide (h ≠ v.contentSha1)) := rfl
    rw [hh]
    have hfv : (((v :: vs).filter
        (fun u => decide (u.contentSha1 = v.contentSha1))).head?) = some v := by
      rw [List.filter_cons]
      simp
    have hstep : ((v.contentSha1 ::
          (hashList vs).filter (fun h => decide (h ≠ v.contentSha1))).filterMap
        (fun h => ((v :: vs).filter (fun u => decide (u.contentSha1 = h))).head?))
        = v :: (((hashList vs).filter (fun h => decide (h ≠ v.contentSha1))).filterMap
            (fun h => ((v :: vs).filter (fun u => decide (u.contentSha1 = h))).head?)) :=
      List.filterMap_cons_some hfv
    rw [hstep]
    have hcongr : ∀ h ∈ (hashList vs).filter (fun h => decide (h ≠ v.contentSha1)),
        ((v :: vs).filter (fun u => decide (u.contentSha1 = h))).head?
          = (vs.filter (fun u => decide (u.contentSha1 = h))).head? := by
      intro h hmem
      rcases List.mem_filter.mp hmem with ⟨_, hne⟩
      have hne' : h ≠ v.contentSha1 := by simpa using hne
      have hd : (decide (v.contentSha1 = h)) = false := by
        simp only [decide_eq_false_iff_not]
        exact fun hx => hne' hx.symm
      rw [List.filter_cons, hd]
      simp
    rw [List.filterMap_congr hcongr]
    rw [filterMap_filter_key _ _ (fun h u hu => (head?_filter_hash hu).1)]
    rw [← partition_fst, ih]
    rfl

lemma mem_partition_fst {l : List VersionRecord} {a : VersionRecord} :
    a ∈ (partition l).1
      ↔ (l.filter (fun v => decide (v.contentSha1 = a.contentSha1))).head? = some a := by
  rw [partition_fst]
  constructor
  · intro hmem
    rcases List.mem_filterMap.mp hmem with ⟨h, _, hhead⟩
    rcases head?_filter_hash hhead with ⟨hc, _⟩
    rw [hc]
    exact hhead
  · intro hhead
    refine List.mem_filterMap.mpr ⟨a.contentSha1, ?_, hhead⟩
    rcases head?_filter_hash hhead with ⟨_, hl⟩
    rw [mem_hashList]
    exact List.mem_map.mpr ⟨a, hl, rfl⟩

lemma mem_partition_snd {l : List VersionRecord} {a : VersionRecord}
    (hmem : a ∈ (partition l).2) :
    a ∈ (l.filter (fun v => decide (v.contentSha1 = a.contentSha1))).tail := by
  rw [partition_snd] at hmem
  rcases List.mem_flatMap.mp hmem with ⟨h, _, htail⟩
  have hfil : a ∈ l.filter (fun v => decide (v.contentSha1 = h)) :=
    List.mem_of_mem_tail htail
  rcases List.mem_filter.mp hfil with ⟨_, hdec⟩
  have hc : a.contentSha1 = h := by simpa using hdec
  rw [← hc] at htail
  exact htail

lemma partition_disjoint (l : List VersionRecord) (hnd : l.Nodup) :
    List.Disjoint (partition l).1 (partition l).2 := by
  intro a hfst hsnd
  have hhead := mem_partition_fst.mp hfst
  have htail := mem_partition_snd hsnd
  have hfnd : (l.filter (fun v => decide (v.contentSha1 = a.contentSha1))).Nodup :=
    hnd.filter _
  cases hl : l.filter (fun v => decide (v.contentSha1 = a.contentSha1)) with
  | nil => rw [hl] at hhead; simp at hhead
  | cons b t =>
    rw [hl] at hhead htail hfnd
    simp only [List.head?_cons, Option.some.injEq] at hhead
    subst hhead
    simp only [List.tail_cons] at htail
    exact (List.nodup_cons.mp hfnd).1 htail

lemma heads_tails_perm (G : List (List VersionRecord)) :
    (G.filterMap List.head? ++ G.flatMap List.tail).Perm (G.flatMap id) := by
  induction G with
  | nil => simp
  | cons g G ih =>
    cases g with
    | nil => simpa using ih
    | cons x t =>
      have h1 : ((x :: t) :: G).filterMap List.head? = x :: G.filterMap List.head? :=
        List.filterMap_cons_some rfl
      have h2 : ((x :: t) :: G).flatMap List.tail = t ++ G.flatMap List.tail := by
        simp
      have h3 : ((x :: t) :: G).flatMap id = x :: (t ++ G.flatMap id) := by
        simp
      rw [h1, h2, h3, List.cons_append]
      refine List.Perm.cons x ?_
      have e1 : G.filterMap List.head? ++ (t ++ G.flatMap List.tail)
          = (G.filterMap List.head? ++ t) ++ G.flatMap List.tail :=
        (List.append_assoc _ _ _).symm
      have p2 : ((G.filterMap List.head? ++ t) ++ G.flatMap List.tail).Perm
          ((t ++ G.filterMap List.head?) ++ G.flatMap List.tail) :=
        List.perm_append_comm.append_right _
      have e3 : (t ++ G.filterMap List.head?) ++ G.flatMap List.tail
          = t ++ (G.filterMap List.head? ++ G.flatMap List.tail) :=
        List.append_assoc _ _ _
      have p4 : (t ++ (G.filterMap List.head? ++ G.flatMap List.tail)).Perm
          (t ++ G.flatMap id) := ih.append_left t
      rw [e1]
      exact p2.trans (by rw [e3]; exact p4)

lemma perm_cons_filter_ne {K : List String} {a : String}
    (hnd : K.Nodup) (ha : a ∈ K) :
    K.Perm (a :: K.filter (fun h => decide (h ≠ a))) := by
  induction K with
  | nil => cases ha
  | cons b K ih =>
    rcases List.nodup_cons.mp hnd with ⟨hb, hndK⟩
    rcases List.mem_cons.mp ha with hab | haK
    · rw [List.filter_cons]
      have hd : (decide (b ≠ a)) = false := by simp [hab]
      rw [hd]
      simp only [Bool.false_eq_true, if_false]
      have hfil : K.filter (fun h => decide (h ≠ a)) = K :=
        List.filter_eq_self.mpr (fun x hx => by
          simp only [decide_eq_true_eq]
          exact fun hxa => hb ((hxa.trans hab) ▸ hx))
      rw [hfil, hab]
    · have hba : b ≠ a := fun hx => hb (hx ▸ haK)
      rw [List.filter_cons]
      have hd : (decide (b ≠ a)) = true := by simp [hba]
      rw [hd]
      simp only [if_true]
      exact ((ih hndK haK).cons b).trans (List.Perm.swap _ _ _)

lemma flatMap_filter_hash_perm (l : List VersionRecord) :
    ((hashList l).flatMap
      (fun h => l.filter (fun v => decide (v.contentSha1 = h)))).Perm l := by
  induction l with
  | nil => simp [hashList]
  | cons v vs ih =>
    have hh : hashList (v :: vs)
        = v.contentSha1 :: (hashList vs).filter (fun h => decide (h ≠ v.contentSha1)) := rfl
    rw [hh, List.flatMap_cons]
    have hfv : (v :: vs).filter (fun u => decide (u.contentSha1 = v.contentSha1))
        = v :: vs.filter (fun u => decide (u.contentSha1 = v.contentSha1)) := by
      rw [List.filter_cons]
      simp
    rw [hfv]
    have hcongr : ((hashList vs).filter (fun h => decide (h ≠ v.contentSha1))).flatMap
        (fun h => (v :: vs).filter (fun u => decide (u.contentSha1 = h)))
        = ((hashList vs).filter (fun h => decide (h ≠ v.contentSha1))).flatMap
          (fun h => vs.filter (fun u => decide (u.contentSha1 = h))) := by
      refine List.flatMap_congr ?_
      intro h hmem
      rcases List.mem_filter.mp hmem with ⟨_, hne⟩
      have hne' : h ≠ v.contentSha1 := by simpa using hne
      have hd : (decide (v.contentSha1 = h)) = false := by
        simp only [decide_eq_false_iff_not]
        exact fun hx => hne' hx.symm
      rw [List.filter_cons, hd]
      simp
    rw [hcongr, List.cons_append]
    refine List.Perm.cons v ?_
    by_cases hmem : v.contentSha1 ∈ hashList vs
    · have hperm : (hashList vs).Perm
          (v.contentSha1 :: (hashList vs).filter (fun h => decide (h ≠ v.contentSha1))) :=
        perm_cons_filter_ne (hashList_nodup vs) hmem
      have := (hperm.flatMap_right
        (fun h => vs.filter (fun u => decide (u.contentSha1 = h)))).symm.trans ih
      rw [List.flatMap_cons] at this
      exact this
    · have hfil0 : vs.filter (fun u => decide (u.contentSha1 = v.contentSha1)) = [] := by
        rw [List.filter_eq_nil_iff]
        intro u hu hdec
        apply hmem
        rw [mem_hashList]
        exact List.mem_map.mpr ⟨u, hu, by simpa using hdec⟩
      have hfilK : (hashList vs).filter (fun h => decide (h ≠ v.contentSha1))
          = hashList vs :=
        List.filter_eq_self.mpr (fun x hx => by
          simp only [decide_eq_true_eq]
          exact fun hxv => hmem (hxv ▸ hx))
      rw [hfil0, hfilK, List.nil_append]
      exact ih

lemma partition_perm (l : List VersionRecord) :
    ((partition l).1 ++ (partition l).2).Perm l := by
  rw [partition_fst, partition_snd]
  have hfm : (hashList l).filterMap
        (fun h => (l.filter (fun v => decide (v.contentSha1 = h))).head?)
      = ((hashList l).map
          (fun h => l.filter (fun v => decide (v.contentSha1 = h)))).filterMap
            List.head? := by
    rw [List.filterMap_map]
    rfl
  have hbm : (hashList l).flatMap
        (fun h => (l.filter (fun v => decide (v.contentSha1 = h))).tail)
      = ((hashList l).map
          (fun h => l.filter (fun v => decide (v.contentSha1 = h)))).flatMap
            List.tail := by
    rw [List.flatMap_map]
  have hid : ((hashList l).map
        (fun h => l.filter (fun v => decide (v.contentSha1 = h)))).flatMap id
      = (hashList l).flatMap
          (fun h => l.filter (fun v => decide (v.contentSha1 = h))) := by
    rw [List.flatMap_map]
    rfl
  rw [hfm, hbm]
  exact (heads_tails_perm _).trans (hid ▸ flatMap_filter_hash_perm l)

lemma specSurvivors_sublist (l : List VersionRecord) : (specSurvivors l).Sublist l := by
  induction l with
  | nil => simp [specSurvivors]
  | cons v vs ih =>
    simp only [specSurvivors]
    exact List.Sublist.cons₂ v ((List.filter_sublist _).trans ih)

lemma mem_specSurvivors_cons {v u : VersionRecord} {vs : List VersionRecord} :
    u ∈ specSurvivors (v :: vs)
      ↔ u = v ∨ (u ∈ specSurvivors vs ∧ u.contentSha1 ≠ v.contentSha1) := by
  simp [specSurvivors, List.mem_filter]

lemma specSurvivors_min_char (l : List VersionRecord)
    (hmono : l.Pairwise (fun a b => a.createdOrder < b.createdOrder)) :
    ∀ v ∈ l, (v ∈ specSurvivors l ↔
      ∀ u ∈ l, u.contentSha1 = v.contentSha1 → v.createdOrder ≤ u.createdOrder) := by
  induction l with
  | nil => intro v hv; cases hv
  | cons w vs ih =>
    rcases List.pairwise_cons.mp hmono with ⟨hw, hvs⟩
    intro v hv
    rcases List.mem_cons.mp hv with rfl | hvvs
    · have hmem : v ∈ specSurvivors (v :: vs) := by
        simp [specSurvivors]
      constructor
      · intro _ u hu _
        rcases List.mem_cons.mp hu with rfl | huvs
        · exact Nat.le_refl _
        · exact Nat.le_of_lt (hw u huvs)
      · intro _
        exact hmem
    · have hlt : w.createdOrder < v.createdOrder := hw v hvvs
      have hneq : v ≠ w := by
        intro h
        rw [h] at hlt
        exact Nat.lt_irrefl _ hlt
      rw [mem_specSurvivors_cons]
      constructor
      · rintro (rfl | ⟨hmem, hc⟩)
        · exact absurd rfl hneq
        · intro u hu hcu
          rcases List.mem_cons.mp hu with rfl | huvs
          · exact absurd hcu.symm hc
          · exact (ih hvs v hvvs).mp hmem u huvs hcu
      · intro hmin
        refine Or.inr ⟨?_, ?_⟩
        · exact (ih hvs v hvvs).mpr
            (fun u hu hc => hmin u (List.mem_cons_of_mem _ hu) hc)
        · intro hcv
          have hle := hmin w (List.mem_cons_self _ _) hcv.symm
          exact absurd hlt (Nat.not_lt.mpr hle)

lemma pairwise_created_nodup {l : List VersionRecord}
    (hmono : l.Pairwise (fun a b => a.createdOrder < b.createdOrder)) :
    l.Nodup := by
  have h : l.Pairwise (fun a b : VersionRecord => a ≠ b) :=
    hmono.imp (fun hlt he => absurd (he ▸ hlt) (Nat.lt_irrefl _))
  simpa [List.Nodup] using h

lemma hashList_eq_map {l : List VersionRecord}
    (hnd : (l.map (fun v => v.contentSha1)).Nodup) :
    hashList l = l.map (fun v => v.contentSha1) := by
  induction l with
  | nil => rfl
  | cons v vs ih =>
    have hnd2 := hnd
    rw [List.map_cons, List.nodup_cons] at hnd2
    rcases hnd2 with ⟨hv, hvs⟩
    have hrec : hashList vs = vs.map (fun v => v.contentSha1) := ih hvs
    have hfil : (hashList vs).filter (fun h => decide (h ≠ v.contentSha1)) = hashList vs :=
      List.filter_eq_self.mpr (fun x hx => by
        simp only [decide_eq_true_eq]
        exact fun hxv => hv (hxv ▸ (mem_hashList.mp hx)))
    simp only [hashList, List.map_cons]
    rw [hfil, hrec]

lemma specSurvivors_eq_self {l : List VersionRecord}
    (hnd : (l.map (fun v => v.contentSha1)).Nodup) : specSurvivors l = l := by
  induction l with
  | nil => rfl
  | cons v vs ih =>
    have hnd2 := hnd
    rw [List.map_cons, List.nodup_cons] at hnd2
    rcases hnd2 with ⟨hv, hvs⟩
    have hs : specSurvivors vs = vs := ih hvs
    have hfil : (specSurvivors vs).filter
        (fun u => decide (u.contentSha1 ≠ v.contentSha1)) = specSurvivors vs :=
      List.filter_eq_self.mpr (fun u hu => by
        simp only [decide_eq_true_eq]
        intro hc
        exact hv (List.mem_map.mpr ⟨u, (specSurvivors_sublist vs).subset hu, hc⟩))
    simp only [specSurvivors]
    rw [hfil, hs]

lemma specSurvivors_map_nodup (l : List VersionRecord) :
    ((specSurvivors l).map (fun v => v.contentSha1)).Nodup := by
  induction l with
  | nil => simp [specSurvivors]
  | cons v vs ih =>
    simp only [specSurvivors, List.map_cons]
    refine List.nodup_cons.mpr ⟨?_, ?_⟩
    · intro hmem
      rcases List.mem_map.mp hmem with ⟨u, hu, hc⟩
      rcases List.mem_filter.mp hu with ⟨_, hne⟩
      simp only [decide_eq_true_eq] at hne
      exact hne hc
    · have hsub : (((specSurvivors vs).filter
          (fun u => decide (u.contentSha1 ≠ v.contentSha1))).map
            (fun v => v.contentSha1)).Sublist
          ((specSurvivors vs).map (fun v => v.contentSha1)) :=
        (List.filter_sublist _).map _
      exact List.Nodup.sublist hsub ih

lemma filter_hash_tail_nil {l : List VersionRecord}
    (hnd : (l.map (fun v => v.contentSha1)).Nodup) (h : String) :
    (l.filter (fun v => decide (v.contentSha1 = h))).tail = [] := by
  induction l with
  | nil => rfl
  | cons v vs ih =>
    have hnd2 := hnd
    rw [List.map_cons, List.nodup_cons] at hnd2
    rcases hnd2 with ⟨hv, hvs⟩
    rw [List.filter_cons]
    by_cases hc : v.contentSha1 = h
    · have hd : (decide (v.contentSha1 = h)) = true := by simp [hc]
      rw [hd]
      simp only [if_true]
      have hnil : vs.filter (fun u => decide (u.contentSha1 = h)) = [] := by
        rw [List.filter_eq_nil_iff]
        intro u hu hdec
        have hch : u.contentSha1 = h := by simpa using hdec
        exact hv (List.mem_map.mpr ⟨u, hu, hch.trans hc.symm⟩)
      rw [hnil]
      rfl
    · have hd : (decide (v.contentSha1 = h)) = false := by simp [hc]
      rw [hd]
      simp only [Bool.false_eq_true, if_false]
      exact ih hvs

lemma flatMap_nil_of_all {α β : Type} (K : List α) (f : α → List β)
    (hall : ∀ h ∈ K, f h = []) : K.flatMap f = [] := by
  induction K with
  | nil => rfl
  | cons a K ih =>
    rw [List.flatMap_cons, hall a (List.mem_cons_self _ _), List.nil_append]
    exact ih (fun h hh => hall h (List.mem_cons_of_mem _ hh))

lemma partition_eq_of_hash_nodup {l : List VersionRecord}
    (hnd : (l.map (fun v => v.contentSha1)).Nodup) :
    partition l = (l, []) := by
  have h1 : (partition l).1 = l :=
    (partition_fst_eq_spec l).trans (specSurvivors_eq_self hnd)
  have h2 : (partition l).2 = [] := by
    rw [partition_snd]
    exact flatMap_nil_of_all _ _ (fun h _ => filter_hash_tail_nil hnd h)
  have hpair : partition l = ((partition l).1, (partition l).2) := rfl
  rw [hpair, h1, h2]

/-- C1: for every non-empty list of version records whose `createdOrder` is
strictly increasing along enumeration order (the spec's data model), the
deduplication step keeps, in each fingerprint group, exactly the record
with the smallest `createdOrder` (the first one encountered) as survivor,
marks every other record of that group for deletion, and emits the
survivors in the order of each group's first appearance in the input. -/
theorem C1_dedup_keeps_first_per_fingerprint (versions : List VersionRecord)
    (hne : versions ≠ [])
    (hmono : versions.Pairwise (fun a b => a.createdOrder < b.createdOrder)) :
    (partition versions).1 = specSurvivors versions
    ∧ (∀ v ∈ versions, (v ∈ (partition versions).1 ↔
        ∀ u ∈ versions, u.contentSha1 = v.contentSha1 →
          v.createdOrder ≤ u.createdOrder))
    ∧ (∀ v ∈ versions, v ∉ (partition versions).1 → v ∈ (partition versions).2)
    ∧ (∀ v ∈ versions, v ∈ (partition versions).1 → v ∉ (partition versions).2) := by
  refine ⟨partition_fst_eq_spec versions, ?_, ?_, ?_⟩
  · intro v hv
    rw [partition_fst_eq_spec]
    exact specSurvivors_min_char versions hmono v hv
  · intro v hv hnot
    have hmem : v ∈ (partition versions).1 ++ (partition versions).2 :=
      (partition_perm versions).mem_iff.mpr hv
    rcases List.mem_append.mp hmem with hfst | hsnd
    · exact absurd hfst hnot
    · exact hsnd
  · intro v _ hfst hsnd
    exact partition_disjoint versions (pairwise_created_nodup hmono) hfst hsnd

/-- Concrete three-record input for the C1 witness: two records share
fingerprint h1, a third carries h2. -/
def c1List : List VersionRecord :=
  [⟨"a", "f", "h1", 1, none, "upload", 0⟩,
   ⟨"b", "f", "h1", 2, none, "upload", 1⟩,
   ⟨"c", "f", "h2", 3, none, "upload", 2⟩]

/-- Witness for C1 at a concrete input. -/
theorem C1_witness :
    (partition c1List).1 = specSurvivors c1List :=
  (C1_dedup_keeps_first_per_fingerprint c1List (by decide) (by decide)).1

/-- C2: the partition is a deterministic pure function; for identity-distinct
inputs every record lands in exactly one of the two outputs (survivors and
deletion set are jointly a permutation of the input and are disjoint). -/
theorem C2_partition_total_and_disjoint (versions : List VersionRecord)
    (hnd : versions.Nodup) :
    (∀ ws, ws = versions → partition ws = partition versions)
    ∧ ((partition versions).1 ++ (partition versions).2).Perm versions
    ∧ List.Disjoint (partition versions).1 (partition versions).2 :=
  ⟨fun _ h => h ▸ rfl, partition_perm versions, partition_disjoint versions hnd⟩

/-- Concrete input for the C2 witness. -/
def c2List : List VersionRecord :=
  [⟨"a", "f", "h1", 1, none, "upload", 0⟩,
   ⟨"b", "f", "h2", 2, none, "upload", 1⟩,
   ⟨"c", "f", "h1", 3, none, "upload", 2⟩]

/-- Witness for C2 at a concrete input. -/
theorem C2_witness :
    ((partition c2List).1 ++ (partition c2List).2).Perm c2List :=
  (C2_partition_total_and_disjoint c2List (by decide)).2.1

/-- C9: deduplication is idempotent: partitioning the survivors output again
returns those survivors unchanged with an empty deletion set. -/
theorem C9_partition_idempotent (versions : List VersionRecord) :
    partition ((partition versions).1) = ((partition versions).1, []) := by
  apply partition_eq_of_hash_nodup
  rw [partition_fst_eq_spec]
  exact specSurvivors_map_nodup versions

/-- One page of the upstream `b2_list_file_versions` response. -/
structure ListPage where
  files : List VersionRecord
  nextFileName : Option String
  nextFileId : Option String
deriving DecidableEq, Repr, Inhabited

/-- The loop-continuation test of `listFileVersions`:
`data.nextFileName && data.nextFileName === fileName` (JS truthiness makes
a missing or empty `nextFileName` falsy). -/
def continueListing (fileName : String) (p : ListPage) : Bool :=
  match p.nextFileName with
  | some n => !(decide (n = "")) && decide (n = fileName)
  | none => false

/-- The per-page filter of `listFileVersions`:
`data.files.filter(f => f.fileName === fileName && f.action === 'upload')`. -/
def pageMatches (fileName : String) (p : ListPage) : List VersionRecord :=
  p.files.filter (fun f => decide (f.fileName = fileName) && decide (f.action = "upload"))

/-- The `while (true)` pagination loop of `listFileVersions`, over an
abstract page supplier indexed by call number; returns the collected
records and the number of pages fetched, or `none` when the fuel bound is
hit. -/
def listVersionsGo (fileName : String) (supplier : Nat → ListPage) :
    Nat → Nat → Option (List VersionRecord × Nat)
  | 0, _ => none
  | fuel + 1, i =>
    if continueListing fileName (supplier i) then
      match listVersionsGo fileName supplier fuel (i + 1) with
      | some (rest, k) => some (pageMatches fileName (supplier i) ++ rest, k + 1)
      | none => none
    else
      some (pageMatches fileName (supplier i), 1)

/-- `listFileVersions` of the source, starting at the first page. -/
def listFileVersions (fileName : String) (supplier : Nat → ListPage) (fuel : Nat) :
    Option (List VersionRecord × Nat) :=
  listVersionsGo fileName supplier fuel 0

lemma continueListing_true_iff {fileName : String} (hfn : fileName ≠ "") (p : ListPage) :
    continueListing fileName p = true ↔ p.nextFileName = some fileName := by
  unfold continueListing
  cases hn : p.nextFileName with
  | none => simp
  | some n =>
    simp only [Bool.and_eq_true, Bool.not_eq_true', decide_eq_false_iff_not,
      decide_eq_true_eq, Option.some.injEq]
    constructor
    · rintro ⟨_, rfl⟩
      exact rfl
    · intro h
      subst h
      exact ⟨hfn, rfl⟩

lemma listVersionsGo_spec (fileName : String) (hfn : fileName ≠ "")
    (supplier : Nat → ListPage) :
    ∀ (n j fuel : Nat),
      (∀ i, i < n → (supplier (j + i)).nextFileName = some fileName) →
      (supplier (j + n)).nextFileName ≠ some fileName →
      n + 1 ≤ fuel →
      listVersionsGo fileName supplier fuel j
        = some ((List.range' j (n + 1)).flatMap
            (fun i => pageMatches fileName (supplier i)), n + 1) := by
  intro n
  induction n with
  | zero =>
    intro j fuel hcont hstop hfuel
    cases fuel with
    | zero => exact absurd hfuel (by omega)
    | succ f =>
      simp only [Nat.add_zero] at hstop
      have hc : continueListing fileName (supplier j) = false := by
        rw [Bool.eq_false_iff]
        intro htrue
        exact hstop ((continueListing_true_iff hfn _).mp htrue)
      simp [listVersionsGo, hc, List.range'_one]
  | succ m ih =>
    intro j fuel hcont hstop hfuel
    cases fuel with
    | zero => exact absurd hfuel (by omega)
    | succ f =>
      have hc : continueListing fileName (supplier j) = true := by
        rw [continueListing_true_iff hfn]
        have h0 := hcont 0 (by omega)
        simpa using h0
      have hrec := ih (j + 1) f
        (fun i hi => by
          have h1 := hcont (i + 1) (by omega)
          rw [show j + (i + 1) = j + 1 + i by omega] at h1
          exact h1)
        (by
          have h2 := hstop
          rw [show j + (m + 1) = j + 1 + m by omega] at h2
          exact h2)
        (by omega)
      have hgoal : listVersionsGo fileName supplier (f + 1) j
          = some (pageMatches fileName (supplier j)
              ++ (List.range' (j + 1) (m + 1)).flatMap
                  (fun i => pageMatches fileName (supplier i)), (m + 1) + 1) := by
        simp [listVersionsGo, hc, hrec]
      rw [hgoal]
      have hr : (List.range' j (m + 1 + 1)).flatMap
            (fun i => pageMatches fileName (supplier i))
          = pageMatches fileName (supplier j)
            ++ (List.range' (j + 1) (m + 1)).flatMap
                (fun i => pageMatches fileName (supplier i)) := by
        rw [List.range'_succ, List.flatMap_cons]
      rw [hr]

/-- C3: for every upstream page sequence, exact-path enumeration returns
exactly the concatenation, in page order, of each fetched page's records
whose name equals the requested path and whose action is upload; when N
pages return a `nextFileName` equal to the path and the next one does not,
exactly N + 1 pages are fetched and the outcome ignores every later page
(no further call is issued). -/
theorem C3_pagination_exact (fileName : String) (supplier : Nat → ListPage)
    (N fuel : Nat) (hfn : fileName ≠ "")
    (hcont : ∀ i, i < N → (supplier i).nextFileName = some fileName)
    (hstop : (supplier N).nextFileName ≠ some fileName)
    (hfuel : N + 1 ≤ fuel) :
    listFileVersions fileName supplier fuel
      = some ((List.range (N + 1)).flatMap
          (fun i => pageMatches fileName (supplier i)), N + 1)
    ∧ ∀ supplier2 : Nat → ListPage, (∀ i, i ≤ N → supplier2 i = supplier i) →
        listFileVersions fileName supplier2 fuel
          = listFileVersions fileName supplier fuel := by
  have hrange : List.range' 0 (N + 1) = List.range (N + 1) :=
    (List.range_eq_range' (N + 1)).symm
  have h1 := listVersionsGo_spec fileName hfn supplier N 0 fuel
    (fun i hi => by simpa using hcont i hi) (by simpa using hstop) hfuel
  constructor
  · show listVersionsGo fileName supplier fuel 0 = _
    rw [h1, hrange]
  · intro s2 hagree
    have h2 := listVersionsGo_spec fileName hfn s2 N 0 fuel
      (fun i hi => by
        rw [show 0 + i = i by omega, hagree i (by omega)]
        exact hcont i hi)
      (by
        rw [show 0 + N = N by omega, hagree N (Nat.le_refl N)]
        exact hstop)
      hfuel
    show listVersionsGo fileName s2 fuel 0 = listVersionsGo fileName supplier fuel 0
    rw [h1, h2, hrange]
    have hsame : (List.range (N + 1)).flatMap (fun i => pageMatches fileName (s2 i))
        = (List.range (N + 1)).flatMap (fun i => pageMatches fileName (supplier i)) :=
      List.flatMap_congr (fun i hi => by
        rw [hagree i (by
          have hm := List.mem_range.mp hi
          omega)])
    rw [hsame]

/-- First mocked page for the C3 witness: one exact-name upload, one
sibling-path record, and a `nextFileName` still equal to the path. -/
def c3Page0 : ListPage :=
  ⟨[⟨"a", "p", "h1", 1, none, "upload", 0⟩,
    ⟨"x", "other", "h9", 1, none, "upload", 0⟩], some "p", some "a2"⟩

/-- Second mocked page for the C3 witness: a hide marker, an exact-name
upload, and a `nextFileName` that has moved past the path. -/
def c3Page1 : ListPage :=
  ⟨[⟨"b", "p", "h2", 2, none, "hide", 1⟩,
    ⟨"c", "p", "h2", 2, none, "upload", 1⟩], some "q", none⟩

/-- Mocked page supplier for the C3 witness. -/
def c3Supplier : Nat → ListPage
  | 0 => c3Page0
  | _ => c3Page1

/-- Witness for C3 at a concrete two-page mocked listing. -/
theorem C3_witness :
    listFileVersions "p" c3Supplier 5
      = some ((List.range 2).flatMap (fun i => pageMatches "p" (c3Supplier i)), 2) :=
  (C3_pagination_exact "p" c3Supplier 1 5 (by decide)
    (fun i hi => by
      have h0 : i = 0 := by omega
      subst h0
      rfl)
    (by decide) (by decide)).1

/-- Raw object bytes are abstracted as a list of byte values. -/
abbrev Bytes := List Nat

/-- A page of the composable document format, kept abstract. -/
abbrev PdfPage := Nat

/-- Oracles for every upstream effect of one request: handshake outcome,
listing outcome, download by fileId (`none` models a thrown non-2xx),
deletion success by fileId (the failure is caught in the loop), the
pdf-lib `PDFDocument.load` page extraction (`none` models a parse
failure), and `PDFDocument.save` serialization. -/
structure Oracles where
  authOk : Bool
  listing : Except Unit (List VersionRecord)
  download : String → Option Bytes
  deleteOk : String → Bool
  parsePdf : Bytes → Option (List PdfPage)
  savePdf : List PdfPage → Bytes

/-- Trace of the effectful calls a request issues: downloads attempted (in
order, by fileId), deletions attempted (fileId with success flag), and the
buffer lists handed to the PDF composer. -/
structure Trace where
  downloads : List String
  deletes : List (String × Bool)
  composeCalls : List (List Bytes)
deriving DecidableEq, Repr

/-- The empty trace. -/
def Trace.empty : Trace := ⟨[], [], []⟩

/-- The loop body of `combinePDFs`: each buffer is loaded (a failure throws
and aborts the merge) and its pages are appended, in order, to the
accumulated output document. -/
def combineGo (parsePdf : Bytes → Option (List PdfPage)) :
    List PdfPage → List Bytes → Option (List PdfPage)
  | acc, [] => some acc
  | acc, b :: bs =>
    match parsePdf b with
    | none => none
    | some pages => combineGo parsePdf (acc ++ pages) bs

/-- `combinePDFs` of the source, producing the merged page sequence. -/
def combinePDFs (parsePdf : Bytes → Option (List PdfPage)) (pdfBuffers : List Bytes) :
    Option (List PdfPage) :=
  combineGo parsePdf [] pdfBuffers

/-- The sequential download loop of the merge branch: aborts at the first
failing download; also returns the fileIds attempted. -/
def downloadAll (download : String → Option Bytes) :
    List VersionRecord → Option (List Bytes) × List String
  | [] => (some [], [])
  | v :: vs =>
    match download v.fileId with
    | none => (none, [v.fileId])
    | some b =>
      match downloadAll download vs with
      | (none, tr) => (none, v.fileId :: tr)
      | (some bs, tr) => (some (b :: bs), v.fileId :: tr)

/-- `deduplicateAndCombineVersions` of the source, over an already-fetched
listing (the listing call itself is resolved by the caller, see
`handleFetch`): returns `Except.error` when a download or the composer
throws, `Except.ok none` for the null (not-found) result, `Except.ok
(some bytes)` otherwise, together with the effect trace.  Deletions are
attempted for every record of the deletion set and their failures are
swallowed. -/
def deduplicateAndCombineVersions (ors : Oracles) (versions : List VersionRecord)
    (mergeEnabled : Bool) : Except Unit (Option Bytes) × Trace :=
  if versions.length = 0 then (Except.ok none, Trace.empty)
  else if versions.length = 1 then
    match ors.download versions.headI.fileId with
    | none => (Except.error (), ⟨[versions.headI.fileId], [], []⟩)
    | some b => (Except.ok (some b), ⟨[versions.headI.fileId], [], []⟩)
  else
    let uniqueVersions := (partition versions).1
    let deletes := (partition versions).2.map (fun v => (v.fileId, ors.deleteOk v.fileId))
    if uniqueVersions.length = 1 then
      match ors.download uniqueVersions.headI.fileId with
      | none => (Except.error (), ⟨[uniqueVersions.headI.fileId], deletes, []⟩)
      | some b => (Except.ok (some b), ⟨[uniqueVersions.headI.fileId], deletes, []⟩)
    else if !mergeEnabled then
      match ors.download uniqueVersions.headI.fileId with
      | none => (Except.error (), ⟨[uniqueVersions.headI.fileId], deletes, []⟩)
      | some b => (Except.ok (some b), ⟨[uniqueVersions.headI.fileId], deletes, []⟩)
    else
      match downloadAll ors.download uniqueVersions with
      | (none, dls) => (Except.error (), ⟨dls, deletes, []⟩)
      | (some bufs, dls) =>
        match combinePDFs ors.parsePdf bufs with
        | none => (Except.error (), ⟨dls, deletes, [bufs]⟩)
        | some pages => (Except.ok (some (ors.savePdf pages)), ⟨dls, deletes, [bufs]⟩)

/-- JS `String(x)` on an environment value: an absent variable is
`undefined` and stringifies to "undefined". -/
def jsString : Option String → String
  | none => "undefined"
  | some s => s

/-- JS `x || d` on an optional string: `undefined` and the empty string are
falsy. -/
def jsStringOr (v : Option String) (d : String) : String :=
  match v with
  | some t => if t = "" then d else t
  | none => d

/-- JS `String.prototype.endsWith`, modelled over the character list (the
core library's `String.endsWith` does not reduce inside the kernel). -/
def strEndsWith (s tail2 : String) : Bool :=
  tail2.data.isSuffixOf s.data

/-- JS `String.prototype.toLowerCase`, modelled over the character list. -/
def strToLower (s : String) : String :=
  (s.data.map Char.toLower).asString

/-- Path normalization of the handler: drop one leading and one trailing
slash (`replace(/^\//,'').replace(/\/$/,'')`), modelled over the
character list. -/
def stripPath (pathname : String) : String :=
  let l1 := match pathname.data with
    | [] => ([] : List Char)
    | c :: rest => if c = '/' then rest else c :: rest
  let l2 := if l1.getLast? = some '/' then l1.dropLast else l1
  l2.asString

/-- The static content-type table of the GET branch. -/
def contentTypeFor (path : String) : String :=
  if strEndsWith (strToLower path) ".pdf" then "application/pdf"
  else if strEndsWith (strToLower path) ".jpg" || strEndsWith (strToLower path) ".jpeg" then
    "image/jpeg"
  else if strEndsWith (strToLower path) ".png" then "image/png"
  else if strEndsWith (strToLower path) ".txt" then "text/plain"
  else "application/octet-stream"

/-- `isPdf && mergeVersions` of the handler: the path must end in ".pdf"
after lower-casing and `String(env.MERGE_PDF_VERSIONS)` must be exactly
"true". -/
def mergeRequested (path : String) (mergeEnv : Option String) : Bool :=
  strEndsWith (strToLower path) ".pdf" && decide (jsString mergeEnv = "true")

/-- The environment configuration the handler reads. -/
structure Env where
  bucketId : Option String
  mergePdfVersions : Option String

/-- An HTTP response; text bodies (banner, error messages) are abstracted
away, only byte bodies are kept. -/
structure HttpResponse where
  status : Nat
  contentType : Option String
  contentLength : Option Nat
  body : Option Bytes
deriving DecidableEq, Repr

/-- The worker `fetch` handler: method check, path normalization, banner,
handshake, bucket check, HEAD branch (listing only, fields of
`versions[0]`, no body), GET branch (deduplicate / merge pipeline), and
the catch-all mapping any thrown error to a 500. -/
def handleFetch (ors : Oracles) (method : String) (pathname : String) (env : Env) :
    HttpResponse × Trace :=
  if ¬(method = "GET" ∨ method = "HEAD") then
    (⟨405, none, none, none⟩, Trace.empty)
  else
    let path := stripPath pathname
    if path = "" then
      (⟨200, some "text/plain", none, none⟩, Trace.empty)
    else if ors.authOk = false then
      (⟨500, none, none, none⟩, Trace.empty)
    else
      match env.bucketId with
      | none => (⟨500, none, none, none⟩, Trace.empty)
      | some _ =>
        if method = "HEAD" then
          match ors.listing with
          | Except.error _ => (⟨500, none, none, none⟩, Trace.empty)
          | Except.ok [] => (⟨404, none, none, none⟩, Trace.empty)
          | Except.ok (latest :: _) =>
            (⟨200, some (jsStringOr latest.contentType "application/octet-stream"),
              some latest.contentLength, none⟩, Trace.empty)
        else
          match ors.listing with
          | Except.error _ => (⟨500, none, none, none⟩, Trace.empty)
          | Except.ok versions =>
            match deduplicateAndCombineVersions ors versions
                (mergeRequested path env.mergePdfVersions) with
            | (Except.error _, tr) => (⟨500, none, none, none⟩, tr)
            | (Except.ok none, tr) => (⟨404, none, none, none⟩, tr)
            | (Except.ok (some b), tr) =>
              (⟨200, some (contentTypeFor path), none, some b⟩, tr)

/-- Modelled from the spec: the most recent version of a listing is the one
with the greatest `createdOrder`, enumeration order being chronological
oldest to newest (spec data model); used to state C5 against the code. -/
def mostRecent (versions : List VersionRecord) : Option VersionRecord :=
  versions.foldl
    (fun acc v =>
      match acc with
      | none => some v
      | some u => if u.createdOrder < v.createdOrder then some v else some u)
    none

lemma partition_fst_length_le (l : List VersionRecord) :
    (partition l).1.length ≤ l.length := by
  rw [partition_fst_eq_spec]
  exact (specSurvivors_sublist l).length_le

lemma dedup_multi_nomerge (ors : Oracles) (versions : List VersionRecord) (b : Bytes)
    (h2 : 2 ≤ (partition versions).1.length)
    (hdl : ors.download ((partition versions).1.headI.fileId) = some b) :
    deduplicateAndCombineVersions ors versions false
      = (Except.ok (some b),
         ⟨[(partition versions).1.headI.fileId],
          (partition versions).2.map (fun v => (v.fileId, ors.deleteOk v.fileId)), []⟩) := by
  have hlen : 2 ≤ versions.length := le_trans h2 (partition_fst_length_le versions)
  have h0 : ¬(versions.length = 0) := by omega
  have h1 : ¬(versions.length = 1) := by omega
  have hu1 : ¬((partition versions).1.length = 1) := by omega
  unfold deduplicateAndCombineVersions
  rw [if_neg h0, if_neg h1]
  simp only [if_neg hu1, Bool.not_false, if_true, hdl]

/-- C4: when a listing yields more than one survivor and merge capability is
not requested, the orchestrator downloads and returns the bytes of
`survivors[0]` (the first, chronologically earliest, distinct content) and
never invokes the composer. -/
theorem C4_multi_survivor_no_merge (ors : Oracles) (versions : List VersionRecord)
    (b : Bytes) (h2 : 2 ≤ (partition versions).1.length)
    (hdl : ors.download ((partition versions).1.headI.fileId) = some b) :
    (deduplicateAndCombineVersions ors versions false).1 = Except.ok (some b)
    ∧ (deduplicateAndCombineVersions ors versions false).2.composeCalls = []
    ∧ (deduplicateAndCombineVersions ors versions false).2.downloads
        = [(partition versions).1.headI.fileId] := by
  rw [dedup_multi_nomerge ors versions b h2 hdl]
  exact ⟨rfl, rfl, rfl⟩

/-- Concrete input for the C4 witness: two distinct-fingerprint records. -/
def c4List : List VersionRecord :=
  [⟨"a", "report.pdf", "h1", 1, none, "upload", 0⟩,
   ⟨"b", "report.pdf", "h2", 2, none, "upload", 1⟩]

/-- Oracles for the C4 witness: every download returns the one-byte body
[7]. -/
def c4Oracles : Oracles :=
  ⟨true, Except.ok c4List, fun _ => some [7], fun _ => true,
   fun _ => none, fun _ => []⟩

/-- Witness for C4 at a concrete input. -/
theorem C4_witness :
    (deduplicateAndCombineVersions c4Oracles c4List false).1 = Except.ok (some [7]) :=
  (C4_multi_survivor_no_merge c4Oracles c4List [7] (by decide) (by decide)).1

/-- C7: a listing with zero eligible versions terminates in the null result
with no download and no deletion; a listing with exactly one eligible
version downloads and returns that version's bytes and issues no
deletion. -/
theorem C7_zero_and_single_version (ors : Oracles) (mergeEnabled : Bool) :
    deduplicateAndCombineVersions ors [] mergeEnabled = (Except.ok none, Trace.empty)
    ∧ ∀ v : VersionRecord,
        (deduplicateAndCombineVersions ors [v] mergeEnabled).2.deletes = []
        ∧ (deduplicateAndCombineVersions ors [v] mergeEnabled).2.downloads = [v.fileId]
        ∧ ∀ b, ors.download v.fileId = some b →
            (deduplicateAndCombineVersions ors [v] mergeEnabled).1
              = Except.ok (some b) := by
  refine ⟨rfl, ?_⟩
  intro v
  have hunfold : deduplicateAndCombineVersions ors [v] mergeEnabled
      = match ors.download v.fileId with
        | none => (Except.error (), ⟨[v.fileId], [], []⟩)
        | some b => (Except.ok (some b), ⟨[v.fileId], [], []⟩) := by
    unfold deduplicateAndCombineVersions
    rfl
  cases hd : ors.download v.fileId with
  | none =>
    rw [hunfold, hd]
    refine ⟨rfl, rfl, ?_⟩
    intro b hb
    exact absurd hb (by simp)
  | some b0 =>
    rw [hunfold, hd]
    refine ⟨rfl, rfl, ?_⟩
    intro b hb
    rw [Option.some.inj hb]

/-- Oracles for the C7 witness. -/
def c7Oracles : Oracles :=
  ⟨true, Except.ok [], fun _ => some [9], fun _ => true,
   fun _ => none, fun _ => []⟩

/-- Witness for C7 at a concrete single-version input. -/
theorem C7_witness :
    (deduplicateAndCombineVersions c7Oracles
        [⟨"a", "report.pdf", "h1", 1, none, "upload", 0⟩] true).2.deletes = []
    ∧ (deduplicateAndCombineVersions c7Oracles
        [⟨"a", "report.pdf", "h1", 1, none, "upload", 0⟩] true).1
        = Except.ok (some [9]) := by
  have h := (C7_zero_and_single_version c7Oracles true).2
    ⟨"a", "report.pdf", "h1", 1, none, "upload", 0⟩
  exact ⟨h.1, h.2.2 [9] (by decide)⟩

lemma dedup_fst_deleteOk_invariant (ors : Oracles) (d2 : String → Bool)
    (versions : List VersionRecord) (m : Bool) :
    (deduplicateAndCombineVersions
        ⟨ors.authOk, ors.listing, ors.download, d2, ors.parsePdf, ors.savePdf⟩
        versions m).1
      = (deduplicateAndCombineVersions ors versions m).1 := by
  unfold deduplicateAndCombineVersions
  by_cases h0 : versions.length = 0
  · simp [h0]
  · by_cases h1 : versions.length = 1
    · simp [h0, h1]
    · by_cases hu : (partition versions).1.length = 1
      · simp only [if_neg h0, if_neg h1, if_pos hu]
        cases ors.download (partition versions).1.headI.fileId <;> rfl
      · cases m
        · simp only [if_neg h0, if_neg h1, if_neg hu, Bool.not_false, if_true]
          cases ors.download (partition versions).1.headI.fileId <;> rfl
        · simp only [if_neg h0, if_neg h1, if_neg hu, Bool.not_true,
            Bool.false_eq_true, if_false]
          cases hda : downloadAll ors.download (partition versions).1 with
          | mk o dls =>
            cases o with
            | none => rfl
            | some bufs =>
              dsimp only
              cases combinePDFs ors.parsePdf bufs <;> rfl

lemma handleFetch_get_reduces (ors : Oracles) (pathname : String) (env : Env)
    (versions : List VersionRecord) (bid : String)
    (ha : ors.authOk = true) (hb : env.bucketId = some bid)
    (hl : ors.listing = Except.ok versions)
    (hp : stripPath pathname ≠ "") :
    handleFetch ors "GET" pathname env
      = (match deduplicateAndCombineVersions ors versions
            (mergeRequested (stripPath pathname) env.mergePdfVersions) with
         | (Except.error _, tr) => (⟨500, none, none, none⟩, tr)
         | (Except.ok none, tr) => (⟨404, none, none, none⟩, tr)
         | (Except.ok (some b), tr) =>
             (⟨200, some (contentTypeFor (stripPath pathname)), none, some b⟩, tr)) := by
  unfold handleFetch
  have hm : ("GET" = "GET" ∨ "GET" = "HEAD") := Or.inl rfl
  rw [if_neg (fun hn => hn hm)]
  dsimp only
  rw [if_neg hp, if_neg (by simp [ha] : ¬(ors.authOk = false)), hb]
  dsimp only
  rw [if_neg (by decide : ¬(("GET" : String) = "HEAD")), hl]

lemma handleFetch_head_reduces (ors : Oracles) (pathname : String) (env : Env)
    (bid : String)
    (ha : ors.authOk = true) (hb : env.bucketId = some bid)
    (hp : stripPath pathname ≠ "") :
    handleFetch ors "HEAD" pathname env
      = (match ors.listing with
         | Except.error _ => (⟨500, none, none, none⟩, Trace.empty)
         | Except.ok [] => (⟨404, none, none, none⟩, Trace.empty)
         | Except.ok (latest :: _) =>
           (⟨200, some (jsStringOr latest.contentType "application/octet-stream"),
             some latest.contentLength, none⟩, Trace.empty)) := by
  unfold handleFetch
  have hm : ("HEAD" = "GET" ∨ "HEAD" = "HEAD") := Or.inr rfl
  rw [if_neg (fun hn => hn hm)]
  dsimp only
  rw [if_neg hp, if_neg (by simp [ha] : ¬(ors.authOk = false)), hb]
  dsimp only
  rw [if_pos (rfl : ("HEAD" : String) = "HEAD")]

/-- C6: deletion failures are swallowed: the request result is independent
of the deletion oracle; a multi-version listing with one survivor still
completes with the survivor's bytes whatever the deletion outcomes; while
a handshake failure, a listing failure, or a download failure aborts the
request. -/
theorem C6_deletion_failures_swallowed (ors : Oracles) (d2 : String → Bool)
    (versions : List VersionRecord) (mergeEnabled : Bool)
    (pathname : String) (env : Env) (bid : String) (b : Bytes) :
    ((deduplicateAndCombineVersions
        ⟨ors.authOk, ors.listing, ors.download, d2, ors.parsePdf, ors.savePdf⟩
        versions mergeEnabled).1
      = (deduplicateAndCombineVersions ors versions mergeEnabled).1)
    ∧ (2 ≤ versions.length → (partition versions).1.length = 1 →
        ors.download ((partition versions).1.headI.fileId) = some b →
        (deduplicateAndCombineVersions ors versions mergeEnabled).1
          = Except.ok (some b))
    ∧ (ors.authOk = false → stripPath pathname ≠ "" →
        (handleFetch ors "GET" pathname env).1.status = 500)
    ∧ (ors.listing = Except.error () → ors.authOk = true → env.bucketId = some bid →
        stripPath pathname ≠ "" →
        (handleFetch ors "GET" pathname env).1.status = 500)
    ∧ (versions.length = 1 → ors.download versions.headI.fileId = none →
        (deduplicateAndCombineVersions ors versions mergeEnabled).1
          = Except.error ()) := by
  refine ⟨dedup_fst_deleteOk_invariant ors d2 versions mergeEnabled, ?_, ?_, ?_, ?_⟩
  · intro h2 hu hdl
    have h0 : ¬(versions.length = 0) := by omega
    have h1 : ¬(versions.length = 1) := by omega
    unfold deduplicateAndCombineVersions
    rw [if_neg h0, if_neg h1]
    dsimp only
    rw [if_pos hu, hdl]
  · intro hauth hp
    unfold handleFetch
    have hm : ("GET" = "GET" ∨ "GET" = "HEAD") := Or.inl rfl
    rw [if_neg (fun hn => hn hm)]
    dsimp only
    rw [if_neg hp, if_pos hauth]
  · intro hlist hauth hbid hp
    unfold handleFetch
    have hm : ("GET" = "GET" ∨ "GET" = "HEAD") := Or.inl rfl
    rw [if_neg (fun hn => hn hm)]
    dsimp only
    rw [if_neg hp, if_neg (by simp [hauth] : ¬(ors.authOk = false)), hbid]
    dsimp only
    rw [if_neg (by decide : ¬(("GET" : String) = "HEAD")), hlist]
  · intro h1 hdl
    have h0 : ¬(versions.length = 0) := by omega
    unfold deduplicateAndCombineVersions
    rw [if_neg h0, if_pos h1, hdl]

/-- Three byte-identical uploads for the C6 witness. -/
def c6List : List VersionRecord :=
  [⟨"a", "report.pdf", "h1", 1, none, "upload", 0⟩,
   ⟨"b", "report.pdf", "h1", 1, none, "upload", 1⟩,
   ⟨"c", "report.pdf", "h1", 1, none, "upload", 2⟩]

/-- Oracles for the C6 witness; deletions fail for every fileId. -/
def c6Oracles : Oracles :=
  ⟨true, Except.ok c6List, fun _ => some [5], fun _ => false,
   fun _ => none, fun _ => []⟩

/-- Environment for the C6 witness. -/
def c6Env : Env := ⟨some "bkt", none⟩

/-- Witness for C6 at a concrete input with every deletion failing. -/
theorem C6_witness :
    ((deduplicateAndCombineVersions
        ⟨c6Oracles.authOk, c6Oracles.listing, c6Oracles.download, (fun _ => false),
         c6Oracles.parsePdf, c6Oracles.savePdf⟩ c6List false).1
      = (deduplicateAndCombineVersions c6Oracles c6List false).1)
    ∧ (deduplicateAndCombineVersions c6Oracles c6List false).1
        = Except.ok (some [5]) := by
  have h := C6_deletion_failures_swallowed c6Oracles (fun _ => false) c6List false
    "/report.pdf" c6Env "bkt" [5]
  exact ⟨h.1, h.2.1 (by decide) (by decide) (by decide)⟩

/-- C5 (amended): a HEAD request on a path with at least one eligible
version returns the Content-Type and Content-Length of the FIRST
enumerated version (`versions[0]`), with no response body and an empty
effect trace (no deduplication, deletion, download, or merge). -/
theorem C5_head_returns_first_version (ors : Oracles) (pathname : String) (env : Env)
    (bid : String) (latest : VersionRecord) (rest : List VersionRecord)
    (ha : ors.authOk = true) (hb : env.bucketId = some bid)
    (hp : stripPath pathname ≠ "")
    (hl : ors.listing = Except.ok (latest :: rest)) :
    handleFetch ors "HEAD" pathname env
      = (⟨200, some (jsStringOr latest.contentType "application/octet-stream"),
          some latest.contentLength, none⟩, Trace.empty) := by
  rw [handleFetch_head_reduces ors pathname env bid ha hb hp, hl]

/-- Listing for the C5 counterexample: the first enumerated version (the
oldest under the spec's chronological enumeration order) and the most
recent version differ in both Content-Type and Content-Length. -/
def c5Listing : List VersionRecord :=
  [⟨"a", "f.txt", "h1", 1, some "text/plain", "upload", 0⟩,
   ⟨"b", "f.txt", "h2", 2, some "application/pdf", "upload", 1⟩]

/-- Oracles for the C5 counterexample. -/
def c5Oracles : Oracles :=
  ⟨true, Except.ok c5Listing, fun _ => none, fun _ => true,
   fun _ => none, fun _ => []⟩

/-- Environment for the C5 counterexample. -/
def c5Env : Env := ⟨some "bkt", none⟩

/-- Counterexample to C5 as stated: at this concrete listing the HEAD
response carries the Content-Length (and Content-Type) of `versions[0]`,
not of the most recent version (the greatest `createdOrder`). -/
theorem C5_counterexample :
    ¬((handleFetch c5Oracles "HEAD" "/f.txt" c5Env).1.contentLength
        = (mostRecent c5Listing).map (fun v => v.contentLength)) := by
  decide

/-- Witness for the amended C5 at a concrete input. -/
theorem C5_witness :
    handleFetch c5Oracles "HEAD" "/f.txt" c5Env
      = (⟨200, some "text/plain", some 1, none⟩, Trace.empty) :=
  C5_head_returns_first_version c5Oracles "/f.txt" c5Env "bkt"
    ⟨"a", "f.txt", "h1", 1, some "text/plain", "upload", 0⟩
    [⟨"b", "f.txt", "h2", 2, some "application/pdf", "upload", 1⟩]
    rfl rfl (by decide) rfl

/-- C10: merge capability is requested iff the resolved path ends with
".pdf" after lower-casing AND the merge environment value stringifies to
exactly "true"; "TRUE", "1" and an unset value all disable merging; and a
non-PDF path with multiple distinct survivors gets the first survivor's
bytes with the composer never invoked, even when the flag is set. -/
theorem C10_merge_flag (ors : Oracles) (env : Env) (pathname : String)
    (versions : List VersionRecord) (bid : String) (b : Bytes) :
    (∀ p e, mergeRequested p e = true ↔
        (strEndsWith (strToLower p) ".pdf" = true ∧ jsString e = "true"))
    ∧ (∀ p, mergeRequested p (some "TRUE") = false)
    ∧ (∀ p, mergeRequested p (some "1") = false)
    ∧ (∀ p, mergeRequested p none = false)
    ∧ (ors.authOk = true → env.bucketId = some bid →
        ors.listing = Except.ok versions →
        stripPath pathname ≠ "" →
        strEndsWith (strToLower (stripPath pathname)) ".pdf" = false →
        2 ≤ (partition versions).1.length →
        ors.download ((partition versions).1.headI.fileId) = some b →
        (handleFetch ors "GET" pathname env).1.body = some b
        ∧ (handleFetch ors "GET" pathname env).2.composeCalls = []) := by
  refine ⟨?_, ?_, ?_, ?_, ?_⟩
  · intro p e
    simp [mergeRequested]
  · intro p
    have hd : (decide (jsString (some "TRUE") = "true")) = false := by decide
    simp [mergeRequested, hd]
  · intro p
    have hd : (decide (jsString (some "1") = "true")) = false := by decide
    simp [mergeRequested, hd]
  · intro p
    have hd : (decide (jsString none = "true")) = false := by decide
    simp [mergeRequested, hd]
  · intro ha hb hl hp hnp h2 hdl
    have hmr : mergeRequested (stripPath pathname) env.mergePdfVersions = false := by
      unfold mergeRequested
      rw [hnp]
      simp
    have hred := handleFetch_get_reduces ors pathname env versions bid ha hb hl hp
    rw [hred, hmr, dedup_multi_nomerge ors versions b h2 hdl]
    exact ⟨rfl, rfl⟩

/-- Non-PDF two-version listing for the C10 witness. -/
def c10List : List VersionRecord :=
  [⟨"a", "pic.png", "h1", 1, none, "upload", 0⟩,
   ⟨"b", "pic.png", "h2", 2, none, "upload", 1⟩]

/-- Oracles for the C10 witness. -/
def c10Oracles : Oracles :=
  ⟨true, Except.ok c10List, fun _ => some [3], fun _ => true,
   fun _ => none, fun _ => []⟩

/-- Environment for the C10 witness, with the merge flag set. -/
def c10Env : Env := ⟨some "bkt", some "true"⟩

/-- Witness for C10 at a concrete input: the flag is set but the path is
not a PDF, so the first survivor is returned and the composer is never
invoked. -/
theorem C10_witness :
    mergeRequested "pic.png" (some "TRUE") = false
    ∧ (handleFetch c10Oracles "GET" "/pic.png" c10Env).1.body = some [3]
    ∧ (handleFetch c10Oracles "GET" "/pic.png" c10Env).2.composeCalls = [] := by
  have h := C10_merge_flag c10Oracles c10Env "/pic.png" c10List "bkt" [3]
  have h5 := h.2.2.2.2 rfl rfl rfl (by decide) (by decide) (by decide) rfl
  exact ⟨h.2.1 "pic.png", h5.1, h5.2⟩

lemma combineGo_all_some (parsePdf : Bytes → Option (List PdfPage))
    (bufs : List Bytes) (h : ∀ b ∈ bufs, (parsePdf b).isSome) :
    ∀ acc, combineGo parsePdf acc bufs
      = some (acc ++ bufs.flatMap (fun b => (parsePdf b).getD [])) := by
  induction bufs with
  | nil => intro acc; simp [combineGo]
  | cons b bs ih =>
    intro acc
    rcases Option.isSome_iff_exists.mp (h b (List.mem_cons_self _ _)) with ⟨p, hp⟩
    simp only [combineGo, hp]
    rw [ih (fun x hx => h x (List.mem_cons_of_mem _ hx)) (acc ++ p)]
    simp [hp, List.flatMap_cons, List.append_assoc]

lemma combineGo_none_of_fail (parsePdf : Bytes → Option (List PdfPage))
    (bufs : List Bytes) (b : Bytes) (hb : b ∈ bufs) (hfail : parsePdf b = none) :
    ∀ acc, combineGo parsePdf acc bufs = none := by
  induction bufs with
  | nil => cases hb
  | cons x bs ih =>
    intro acc
    rcases List.mem_cons.mp hb with rfl | hbs
    · simp [combineGo, hfail]
    · cases hx : parsePdf x with
      | none => simp [combineGo, hx]
      | some p =>
        simp only [combineGo, hx]
        exact ih hbs _

lemma dedup_merge_compose_fails (ors : Oracles) (versions : List VersionRecord)
    (bufs2 : List Bytes) (dls : List String)
    (h2 : 2 ≤ (partition versions).1.length)
    (hda : downloadAll ors.download (partition versions).1 = (some bufs2, dls))
    (hcomb : combinePDFs ors.parsePdf bufs2 = none) :
    deduplicateAndCombineVersions ors versions true
      = (Except.error (), ⟨dls,
          (partition versions).2.map (fun v => (v.fileId, ors.deleteOk v.fileId)),
          [bufs2]⟩) := by
  have hlen : 2 ≤ versions.length := le_trans h2 (partition_fst_length_le versions)
  have h0 : ¬(versions.length = 0) := by omega
  have h1 : ¬(versions.length = 1) := by omega
  have hu : ¬((partition versions).1.length = 1) := by omega
  unfold deduplicateAndCombineVersions
  rw [if_neg h0, if_neg h1]
  dsimp only
  rw [if_neg hu]
  rw [if_neg (by simp : ¬((!true) = true))]
  rw [hda]
  dsimp only
  rw [hcomb]

/-- The identity page extractor: each buffer parses to its own byte list as
its page sequence; used to exhibit order-sensitivity of the composer. -/
def pageParse : Bytes → Option (List PdfPage) := fun b => some b

/-- C8: with every input parseable, compose yields exactly the
concatenation of each input's pages in input order; compose is
order-sensitive (a concrete permutation changes the output); any
unparseable input makes compose fail with no partial merge, and then a
merge-path request aborts. -/
theorem C8_compose_concatenation (parsePdf : Bytes → Option (List PdfPage))
    (bufs : List Bytes) (ors : Oracles) (versions : List VersionRecord)
    (bufs2 : List Bytes) (dls : List String) :
    ((∀ b ∈ bufs, (parsePdf b).isSome) →
        combinePDFs parsePdf bufs
          = some (bufs.flatMap (fun b => (parsePdf b).getD [])))
    ∧ (∀ b ∈ bufs, parsePdf b = none → combinePDFs parsePdf bufs = none)
    ∧ (combinePDFs pageParse [[0], [1], [2]] ≠ combinePDFs pageParse [[2], [1], [0]])
    ∧ (2 ≤ (partition versions).1.length →
        downloadAll ors.download (partition versions).1 = (some bufs2, dls) →
        combinePDFs ors.parsePdf bufs2 = none →
        (deduplicateAndCombineVersions ors versions true).1 = Except.error ()) := by
  refine ⟨?_, ?_, by decide, ?_⟩
  · intro h
    unfold combinePDFs
    rw [combineGo_all_some parsePdf bufs h []]
    simp
  · intro b hb hfail
    unfold combinePDFs
    exact combineGo_none_of_fail parsePdf bufs b hb hfail []
  · intro h2 hda hcomb
    rw [dedup_merge_compose_fails ors versions bufs2 dls h2 hda hcomb]

/-- Witness for C8 at a concrete input: three single-page buffers compose
to the three pages in input order. -/
theorem C8_witness :
    combinePDFs pageParse [[0], [1], [2]]
      = some ([[0], [1], [2]].flatMap (fun b => (pageParse b).getD []))
    ∧ combinePDFs pageParse [[0], [1], [2]] ≠ combinePDFs pageParse [[2], [1], [0]] := by
  have h := C8_compose_concatenation pageParse [[0], [1], [2]] c4Oracles c4List [] []
  exact ⟨h.1 (by decide), h.2.2.1⟩
